import Mathlib

/-!
Verification of the wildcard pattern-matching engine of `fs/wildcard.py`.

The embedding is shallow: Python strings become `List Char`, the tokenizer
loop of `PatternMatcher.__init__` becomes a fuel-indexed scanner (the Python
loop can fail to terminate, see `tokenizeGo`), `_PatternMatcherToken.match`
and `PatternMatcher._match` become total Lean functions returning `Option`
(`none` models an uncaught Python exception such as `IndexError`), and the
module-level LRU cache used by `match`/`imatch` is modelled explicitly as a
value threaded through the call.
-/

set_option autoImplicit false

deriving instance DecidableEq for Except

namespace Wildcard

/-- Model of the `ValueError` raised by `PatternMatcher.__init__`
(the spec calls it `InvalidPatternError`); each constructor carries the
offending pattern, mirroring the interpolated message text. -/
inductive Err where
  /-- raised on a `]` with no matching `[`: the message
  `... is not a valid wildcard pattern. (unmatched ])`. -/
  | unmatchedBracket (pattern : List Char)
  /-- raised on a run of three or more `*`: the message
  `... is not a valid wildcard pattern. (sequence of three or more *)`. -/
  | starSequence (pattern : List Char)
  deriving DecidableEq

/-- Split a character list at the first `]`: `splitClose l = some (u, v)`
when `l = u ++ ']' :: v` with no `]` in `u`, and `none` when `l` has no `]`.
This models `pattern.find("]", i)` restricted to the suffix from `i`. -/
def splitClose : List Char → Option (List Char × List Char)
  | [] => none
  | c :: rest =>
    if c = ']' then some ([], rest)
    else
      match splitClose rest with
      | none => none
      | some (u, v) => some (c :: u, v)

/-- One compiled token is held as its `token_str` character list, exactly as
`_PatternMatcherToken` stores the string slice it was built from. -/
abbrev Token := List Char

/-- Fuel-indexed embedding of the scanning `while` loop of
`PatternMatcher.__init__`.  The state of the Python loop is the cursor `i`
and the accumulated `self.tokens`; the cursor is represented by the suffix
`s = pattern.drop i` (`p` is the whole pattern, needed because
`pattern.find("]", i) + 1` evaluates to `0` when no `]` exists, resetting the
cursor to the start: that is the `tokenizeGo p fuel p ([] :: acc)` call, whose
appended token is the empty slice `pattern[start:0]`).  `none` means the fuel
ran out, i.e. the Python loop does not terminate. -/
def tokenizeGo (p : List Char) : Nat → List Char → List Token → Option (Except Err (List Token))
  | _, [], acc => some (Except.ok acc.reverse)
  | 0, _ :: _, _ => none
  | fuel + 1, c :: rest, acc =>
    if c = '[' then
      match splitClose rest with
      | some (u, v) => tokenizeGo p fuel v (('[' :: (u ++ [']'])) :: acc)
      | none => tokenizeGo p fuel p ([] :: acc)
    else if c = ']' then some (Except.error (Err.unmatchedBracket p))
    else if c = '?' then tokenizeGo p fuel rest (['?'] :: acc)
    else if c = '*' then
      if 2 < ((c :: rest).takeWhile (fun x => x = '*')).length then
        some (Except.error (Err.starSequence p))
      else
        tokenizeGo p fuel ((c :: rest).drop ((c :: rest).takeWhile (fun x => x = '*')).length)
          (List.replicate ((c :: rest).takeWhile (fun x => x = '*')).length '*' :: acc)
    else tokenizeGo p fuel rest ([c] :: acc)

/-- Compilation of a pattern (the tokenizer part of `PatternMatcher.__init__`).
A terminating run of the Python loop advances the cursor by at least one
character per iteration, so `p.length + 1` units of fuel are never exhausted
by a terminating run; `tokenize p = none` therefore means the Python
constructor loops forever on `p`. -/
def tokenize (p : List Char) : Option (Except Err (List Token)) :=
  tokenizeGo p (p.length + 1) p []

/-- Embedding of `_PatternMatcherToken.match`.  Returns the 0/1/2 outcome;
`none` models the `IndexError` raised by `token_str[0]` / `token_str[1]` on a
too-short token string.  `Char.toLower` models `str.lower()` (the source only
ever folds ASCII pattern text in the sampled tests). -/
def tokenMatch (ts : Token) (character : Char) (case_sensitive : Bool) : Option Nat :=
  match ts with
  | [] => none
  | c0 :: rest =>
    if c0 = '[' then
      match rest with
      | [] => none
      | c1 :: _ =>
        if c1 = '!' then
          if (((c0 :: rest).drop 2).dropLast).contains character then some 0 else some 1
        else
          if (((c0 :: rest).drop 1).dropLast).contains character then some 1 else some 0
    else if ts = ['?'] then some 1
    else if ts = ['*'] then
      if character = '/' then some 0 else some 2
    else if ts = ['*', '*'] then some 2
    else if case_sensitive then
      if ts = [character] then some 1 else some 0
    else
      if ts.map Char.toLower = [Char.toLower character] then some 1 else some 0

/-- Embedding of `PatternMatcher._match`, recursive over the text (first list
argument) with the token list as second argument; `none` models an exception
escaping from `tokenMatch`.  The `some (_ + 2)` arm is the Python `else`
branch `self._match(tokens[1:], text[1:]) or self._match(tokens, text[1:])`,
with the left disjunct evaluated first as Python's `or` does. -/
def pmatch (accept_prefixes case_sensitive : Bool) : List Char → List Token → Option Bool
  | text, [] => some text.isEmpty
  | [], _ :: _ => some accept_prefixes
  | c :: rest, t :: ts =>
    match tokenMatch t c case_sensitive with
    | none => none
    | some 0 => some false
    | some 1 => pmatch accept_prefixes case_sensitive rest ts
    | some (_ + 2) =>
      match pmatch accept_prefixes case_sensitive rest ts with
      | none => none
      | some true => some true
      | some false => pmatch accept_prefixes case_sensitive rest (t :: ts)

/-- The observable outcome of `match(pattern, name, accept_prefix)` /
`imatch(...)` on one query, covering every behaviour of the Python code. -/
inductive MatchResult where
  /-- `PatternMatcher.__init__` never returns (unterminated `[`). -/
  | diverge
  /-- `PatternMatcher.__init__` raises (modelled by `Err`). -/
  | compileError (e : Err)
  /-- an exception escapes during matching itself. -/
  | runtimeError
  /-- matching returns normally with a boolean. -/
  | result (b : Bool)
  deriving DecidableEq

/-- Compile-then-match: what `match` (with `case_sensitive = true`) or
`imatch` (`case_sensitive = false`) computes for one query, ignoring the
cache (the cache only memoizes the compiled `PatternMatcher`). -/
def matchRun (case_sensitive : Bool) (pattern name : List Char) (accept_prefixes : Bool) :
    MatchResult :=
  match tokenize pattern with
  | none => MatchResult.diverge
  | some (Except.error e) => MatchResult.compileError e
  | some (Except.ok toks) =>
    match pmatch accept_prefixes case_sensitive name toks with
    | none => MatchResult.runtimeError
    | some b => MatchResult.result b

/-- Classification of a left-to-right scan of a pattern, used to state the
spec sentences about compile-time errors. -/
inductive ScanOut where
  /-- the scan reaches the end of the pattern without an error. -/
  | done
  /-- the scan hits an unmatched `]` or a run of three or more `*`
  outside a class. -/
  | bad
  /-- the scan hits a `[` with no later `]` (an unterminated class). -/
  | loop
  deriving DecidableEq

/-- Reference scan transcribed from the spec's tokenizer contract (§4.1 of
the spec, quoted by the claim): scanning left to right, a `[` opens a class
that consumes up to the next `]` inclusive (consuming to end-of-string when
no `]` follows); a `]` outside any class is invalid; a run of three or more
consecutive `*` outside a class is invalid.  The first argument is the scan
state: `0` at top level, `1` inside a bracket class, `2` directly after one
`*`, `3` directly after two consecutive `*`. -/
def scanGo : Nat → List Char → ScanOut
  | st, [] => if st = 1 then ScanOut.loop else ScanOut.done
  | st, c :: rest =>
    if st = 1 then
      if c = ']' then scanGo 0 rest else scanGo 1 rest
    else if c = '*' then
      if st = 0 then scanGo 2 rest
      else if st = 2 then scanGo 3 rest
      else ScanOut.bad
    else if c = '[' then scanGo 1 rest
    else if c = ']' then ScanOut.bad
    else scanGo 0 rest

/-- The spec-side characterisation of `InvalidPatternError`: the pattern
contains a `]` not consumed as the terminator of an earlier-opened `[` class,
or a run of three or more consecutive `*` outside a class. -/
def specInvalid (p : List Char) : Prop := scanGo 0 p = ScanOut.bad

/-- The pattern makes the spec-side scan hit a `[` with no later `]`. -/
def specUnterminated (p : List Char) : Prop := scanGo 0 p = ScanOut.loop

instance (p : List Char) : Decidable (specInvalid p) := by
  unfold specInvalid; infer_instance

instance (p : List Char) : Decidable (specUnterminated p) := by
  unfold specUnterminated; infer_instance

/-! ### Basic unfolding lemmas for the reference scan -/

theorem scanGo_zero_nil : scanGo 0 [] = ScanOut.done := rfl

theorem scanGo_zero_lbracket (rest : List Char) :
    scanGo 0 ('[' :: rest) = scanGo 1 rest := by
  simp [scanGo]

theorem scanGo_zero_rbracket (rest : List Char) :
    scanGo 0 (']' :: rest) = ScanOut.bad := by
  simp [scanGo]

theorem scanGo_zero_lit (c : Char) (rest : List Char)
    (h1 : c ≠ '[') (h2 : c ≠ ']') (h3 : c ≠ '*') :
    scanGo 0 (c :: rest) = scanGo 0 rest := by
  simp [scanGo, h1, h2, h3]

/-- Behaviour of the reference scan on a maximal star run: three or more
stars are invalid, otherwise the scan resumes after the run. -/
theorem scanGo_zero_star (rest : List Char) :
    scanGo 0 ('*' :: rest) =
      if 2 < (('*' :: rest).takeWhile (fun x => x = '*')).length then ScanOut.bad
      else scanGo 0 (('*' :: rest).drop (('*' :: rest).takeWhile (fun x => x = '*')).length) := by
  match rest with
  | [] => simp [scanGo, List.takeWhile]
  | d :: rest2 =>
    by_cases hd : d = '*'
    · subst hd
      match rest2 with
      | [] => simp [scanGo, List.takeWhile]
      | e :: rest3 =>
        by_cases he : e = '*'
        · subst he
          have hlen : (('*' :: '*' :: '*' :: rest3).takeWhile (fun x => x = '*')).length =
              3 + ((rest3.takeWhile (fun x => x = '*')).length) := by
            simp [List.takeWhile]; omega
          simp [scanGo, hlen]
        · have hlen : (('*' :: '*' :: e :: rest3).takeWhile (fun x => x = '*')).length = 2 := by
            simp [List.takeWhile, he]
          simp [scanGo, hlen, he]
    · have hlen : (('*' :: d :: rest2).takeWhile (fun x => x = '*')).length = 1 := by
        simp [List.takeWhile, hd]
      by_cases hdl : d = '['
      · subst hdl; simp [scanGo, hlen]
      · by_cases hdr : d = ']'
        · subst hdr; simp [scanGo, hlen]
        · simp [scanGo, hlen, hd, hdl, hdr]

/-- When the pattern head is `*`, the star run is nonempty. -/
theorem star_run_pos (rest : List Char) :
    1 ≤ (('*' :: rest).takeWhile (fun x => x = '*')).length := by
  simp [List.takeWhile]

/-- Inside a class, the scan resumes at top level after the closing `]`
found by `splitClose`. -/
theorem scanGo_one_of_splitClose_some :
    ∀ (l u v : List Char), splitClose l = some (u, v) → scanGo 1 l = scanGo 0 v := by
  intro l
  induction l with
  | nil => intro u v h; simp [splitClose] at h
  | cons c rest ih =>
    intro u v h
    simp only [splitClose] at h
    by_cases hc : c = ']'
    · rw [if_pos hc] at h
      cases h
      simp [scanGo, hc]
    · rw [if_neg hc] at h
      cases hsp : splitClose rest with
      | none => rw [hsp] at h; cases h
      | some uv =>
        obtain ⟨u2, v2⟩ := uv
        rw [hsp] at h
        cases h
        simp [scanGo, hc, ih u2 _ hsp]

/-- Inside a class with no closing `]` anywhere, the scan reports the
unterminated-class outcome. -/
theorem scanGo_one_of_splitClose_none :
    ∀ l : List Char, splitClose l = none → scanGo 1 l = ScanOut.loop := by
  intro l
  induction l with
  | nil => intro h; rfl
  | cons c rest ih =>
    intro h
    simp only [splitClose] at h
    by_cases hc : c = ']'
    · rw [if_pos hc] at h; cases h
    · rw [if_neg hc] at h
      cases hsp : splitClose rest with
      | none => simp [scanGo, hc, ih hsp]
      | some uv => obtain ⟨u, v⟩ := uv; rw [hsp] at h; cases h

/-- A token string on which `tokenMatch` cannot raise: it is nonempty, and
when it starts with `[` it has at least two characters (so that
`token_str[1]` is in range).  Every token emitted by a terminating,
non-raising run of the tokenizer has this shape. -/
def WFTok (t : Token) : Prop :=
  t ≠ [] ∧ (t.head? = some '[' → 2 ≤ t.length)

instance (t : Token) : Decidable (WFTok t) := by
  unfold WFTok; infer_instance

theorem splitClose_length_lt :
    ∀ {l u v : List Char}, splitClose l = some (u, v) → v.length < l.length := by
  intro l
  induction l with
  | nil => intro u v h; simp [splitClose] at h
  | cons c rest ih =>
    intro u v h
    simp only [splitClose] at h
    by_cases hc : c = ']'
    · rw [if_pos hc] at h; cases h; simp
    · rw [if_neg hc] at h
      cases hsp : splitClose rest with
      | none => rw [hsp] at h; cases h
      | some uv =>
        obtain ⟨u2, v2⟩ := uv
        rw [hsp] at h
        cases h
        have := ih hsp
        simp only [List.length_cons]
        omega

/-! ### Lockstep between the code tokenizer and the reference scan -/

/-- If the reference scan of the whole pattern and of the current suffix both
hit an unterminated `[`, the tokenizer loop runs out of any amount of fuel:
the Python constructor never terminates. -/
theorem tokenizeGo_none_of_loop (p : List Char) (hp : scanGo 0 p = ScanOut.loop) :
    ∀ (fuel : Nat) (s : List Char) (acc : List Token),
      scanGo 0 s = ScanOut.loop → tokenizeGo p fuel s acc = none := by
  intro fuel
  induction fuel with
  | zero =>
    intro s acc hs
    match s with
    | [] => rw [scanGo_zero_nil] at hs; cases hs
    | c :: rest => rfl
  | succ fuel ih =>
    intro s acc hs
    match s with
    | [] => rw [scanGo_zero_nil] at hs; cases hs
    | c :: rest =>
      simp only [tokenizeGo]
      by_cases hc : c = '['
      · subst hc
        rw [if_pos rfl]
        rw [scanGo_zero_lbracket] at hs
        cases hsp : splitClose rest with
        | some uv =>
          obtain ⟨u, v⟩ := uv
          have hv : scanGo 0 v = ScanOut.loop := by
            rw [← scanGo_one_of_splitClose_some rest u v hsp]; exact hs
          exact ih v _ hv
        | none => exact ih p _ hp
      · rw [if_neg hc]
        by_cases hc2 : c = ']'
        · subst hc2; rw [scanGo_zero_rbracket] at hs; cases hs
        · rw [if_neg hc2]
          by_cases hc3 : c = '?'
          · subst hc3
            rw [if_pos rfl]
            rw [scanGo_zero_lit _ _ (by decide) (by decide) (by decide)] at hs
            exact ih rest _ hs
          · rw [if_neg hc3]
            by_cases hc4 : c = '*'
            · subst hc4
              rw [if_pos rfl]
              rw [scanGo_zero_star] at hs
              by_cases hlen : 2 < (('*' :: rest).takeWhile (fun x => x = '*')).length
              · rw [if_pos hlen] at hs; cases hs
              · rw [if_neg hlen] at hs
                rw [if_neg hlen]
                exact ih _ _ hs
            · rw [if_neg hc4]
              rw [scanGo_zero_lit _ _ hc hc2 hc4] at hs
              exact ih rest _ hs

/-- If the reference scan of the current suffix finds an invalid pattern,
the tokenizer raises, provided it has fuel for the remaining characters. -/
theorem tokenizeGo_error_of_bad (p : List Char) :
    ∀ (fuel : Nat) (s : List Char) (acc : List Token),
      scanGo 0 s = ScanOut.bad → s.length < fuel →
      ∃ e, tokenizeGo p fuel s acc = some (Except.error e) := by
  intro fuel
  induction fuel with
  | zero => intro s acc hs hlt; omega
  | succ fuel ih =>
    intro s acc hs hlt
    match s with
    | [] => rw [scanGo_zero_nil] at hs; cases hs
    | c :: rest =>
      simp only [tokenizeGo]
      by_cases hc : c = '['
      · subst hc
        rw [if_pos rfl]
        rw [scanGo_zero_lbracket] at hs
        cases hsp : splitClose rest with
        | some uv =>
          obtain ⟨u, v⟩ := uv
          have hv : scanGo 0 v = ScanOut.bad := by
            rw [← scanGo_one_of_splitClose_some rest u v hsp]; exact hs
          refine ih v _ hv ?_
          have := splitClose_length_lt hsp
          simp only [List.length_cons] at hlt
          omega
        | none =>
          rw [scanGo_one_of_splitClose_none rest hsp] at hs; cases hs
      · rw [if_neg hc]
        by_cases hc2 : c = ']'
        · rw [if_pos hc2]
          exact ⟨_, rfl⟩
        · rw [if_neg hc2]
          by_cases hc3 : c = '?'
          · subst hc3
            rw [if_pos rfl]
            rw [scanGo_zero_lit _ _ (by decide) (by decide) (by decide)] at hs
            refine ih rest _ hs ?_
            simp only [List.length_cons] at hlt
            omega
          · rw [if_neg hc3]
            by_cases hc4 : c = '*'
            · subst hc4
              rw [if_pos rfl]
              rw [scanGo_zero_star] at hs
              by_cases hlen : 2 < (('*' :: rest).takeWhile (fun x => x = '*')).length
              · rw [if_pos hlen]
                exact ⟨_, rfl⟩
              · rw [if_neg hlen] at hs
                rw [if_neg hlen]
                have hgoal :
                    (('*' :: rest).drop
                      (('*' :: rest).takeWhile (fun x => x = '*')).length).length < fuel := by
                  have h1 := star_run_pos rest
                  rw [List.length_drop]
                  simp only [List.length_cons] at hlt ⊢
                  omega
                exact ih _ _ hs hgoal
            · rw [if_neg hc4]
              rw [scanGo_zero_lit _ _ hc hc2 hc4] at hs
              refine ih rest _ hs ?_
              simp only [List.length_cons] at hlt
              omega

/-- If neither the suffix scan nor the whole-pattern scan reports an invalid
pattern, the tokenizer never raises (with any fuel). -/
theorem tokenizeGo_no_error_of_not_bad (p : List Char) (hp : scanGo 0 p ≠ ScanOut.bad) :
    ∀ (fuel : Nat) (s : List Char) (acc : List Token) (e : Err),
      scanGo 0 s ≠ ScanOut.bad → tokenizeGo p fuel s acc ≠ some (Except.error e) := by
  intro fuel
  induction fuel with
  | zero =>
    intro s acc e hs
    match s with
    | [] => intro h; cases h
    | c :: rest => intro h; cases h
  | succ fuel ih =>
    intro s acc e hs
    match s with
    | [] => intro h; cases h
    | c :: rest =>
      simp only [tokenizeGo]
      by_cases hc : c = '['
      · subst hc
        rw [if_pos rfl]
        rw [scanGo_zero_lbracket] at hs
        cases hsp : splitClose rest with
        | some uv =>
          obtain ⟨u, v⟩ := uv
          have hv : scanGo 0 v ≠ ScanOut.bad := by
            rw [← scanGo_one_of_splitClose_some rest u v hsp]; exact hs
          exact ih v _ e hv
        | none => exact ih p _ e hp
      · rw [if_neg hc]
        by_cases hc2 : c = ']'
        · subst hc2; rw [scanGo_zero_rbracket] at hs; exact absurd rfl hs
        · rw [if_neg hc2]
          by_cases hc3 : c = '?'
          · subst hc3
            rw [if_pos rfl]
            rw [scanGo_zero_lit _ _ (by decide) (by decide) (by decide)] at hs
            exact ih rest _ e hs
          · rw [if_neg hc3]
            by_cases hc4 : c = '*'
            · subst hc4
              rw [if_pos rfl]
              rw [scanGo_zero_star] at hs
              by_cases hlen : 2 < (('*' :: rest).takeWhile (fun x => x = '*')).length
              · rw [if_pos hlen] at hs; exact absurd rfl hs
              · rw [if_neg hlen] at hs
                rw [if_neg hlen]
                exact ih _ _ e hs
            · rw [if_neg hc4]
              rw [scanGo_zero_lit _ _ hc hc2 hc4] at hs
              exact ih rest _ e hs

/-- Every token produced by a successfully terminating run of the tokenizer
is well formed, provided the suffix scan does not hit an unterminated `[`
and the tokens accumulated so far are well formed. -/
theorem tokenizeGo_ok_wf (p : List Char) :
    ∀ (fuel : Nat) (s : List Char) (acc : List Token) (toks : List Token),
      scanGo 0 s ≠ ScanOut.loop → (∀ t ∈ acc, WFTok t) →
      tokenizeGo p fuel s acc = some (Except.ok toks) → ∀ t ∈ toks, WFTok t := by
  intro fuel
  induction fuel with
  | zero =>
    intro s acc toks hs hacc h
    match s with
    | [] =>
      cases h
      intro t ht
      exact hacc t (List.mem_reverse.mp ht)
    | c :: rest => cases h
  | succ fuel ih =>
    intro s acc toks hs hacc h
    match s with
    | [] =>
      cases h
      intro t ht
      exact hacc t (List.mem_reverse.mp ht)
    | c :: rest =>
      simp only [tokenizeGo] at h
      by_cases hc : c = '['
      · subst hc
        rw [if_pos rfl] at h
        cases hsp : splitClose rest with
        | some uv =>
          obtain ⟨u, v⟩ := uv
          rw [hsp] at h
          have hv : scanGo 0 v ≠ ScanOut.loop := by
            rw [← scanGo_one_of_splitClose_some rest u v hsp]
            rw [scanGo_zero_lbracket] at hs
            exact hs
          refine ih v _ toks hv ?_ h
          intro t ht
          rcases List.mem_cons.mp ht with ht | ht
          · subst ht
            constructor
            · simp
            · intro _; simp
          · exact hacc t ht
        | none =>
          rw [scanGo_zero_lbracket, scanGo_one_of_splitClose_none rest hsp] at hs
          exact absurd rfl hs
      · rw [if_neg hc] at h
        by_cases hc2 : c = ']'
        · rw [if_pos hc2] at h; cases h
        · rw [if_neg hc2] at h
          by_cases hc3 : c = '?'
          · subst hc3
            rw [if_pos rfl] at h
            rw [scanGo_zero_lit _ _ (by decide) (by decide) (by decide)] at hs
            refine ih rest _ toks hs ?_ h
            intro t ht
            rcases List.mem_cons.mp ht with ht | ht
            · subst ht; exact ⟨by simp, by intro hh; cases hh⟩
            · exact hacc t ht
          · rw [if_neg hc3] at h
            by_cases hc4 : c = '*'
            · subst hc4
              rw [if_pos rfl] at h
              rw [scanGo_zero_star] at hs
              by_cases hlen : 2 < (('*' :: rest).takeWhile (fun x => x = '*')).length
              · rw [if_pos hlen] at h; cases h
              · rw [if_neg hlen] at h
                rw [if_neg hlen] at hs
                refine ih _ _ toks hs ?_ h
                intro t ht
                rcases List.mem_cons.mp ht with ht | ht
                · subst ht
                  have h1 := star_run_pos rest
                  obtain ⟨m, hm⟩ : ∃ m,
                      (('*' :: rest).takeWhile (fun x => x = '*')).length = m + 1 :=
                    ⟨(('*' :: rest).takeWhile (fun x => x = '*')).length - 1, by omega⟩
                  rw [hm]
                  constructor
                  · simp
                  · intro hh
                    rw [List.replicate_succ] at hh
                    simp at hh
                · exact hacc t ht
            · rw [if_neg hc4] at h
              rw [scanGo_zero_lit _ _ hc hc2 hc4] at hs
              refine ih rest _ toks hs ?_ h
              intro t ht
              rcases List.mem_cons.mp ht with ht | ht
              · subst ht
                refine ⟨by simp, ?_⟩
                intro hh
                simp only [List.head?_cons, Option.some.injEq] at hh
                exact absurd hh hc
              · exact hacc t ht

/-! ### Consequences for `tokenize` -/

/-- An unterminated class makes compilation diverge. -/
theorem tokenize_none_of_unterminated (p : List Char) (hp : specUnterminated p) :
    tokenize p = none :=
  tokenizeGo_none_of_loop p hp _ p [] hp

/-- Compilation raises exactly on the patterns the reference scan calls
invalid. -/
theorem tokenize_error_iff (p : List Char) :
    (∃ e, tokenize p = some (Except.error e)) ↔ specInvalid p := by
  constructor
  · intro h
    obtain ⟨e, he⟩ := h
    by_contra hbad
    simp only [tokenize] at he
    exact tokenizeGo_no_error_of_not_bad p hbad _ p [] e hbad he
  · intro hbad
    simp only [tokenize]
    exact tokenizeGo_error_of_bad p _ p [] hbad (Nat.lt_succ_self _)

/-- All tokens of a successfully compiled pattern are well formed. -/
theorem tokenize_ok_wf (p : List Char) (toks : List Token)
    (h : tokenize p = some (Except.ok toks)) : ∀ t ∈ toks, WFTok t := by
  have hnl : scanGo 0 p ≠ ScanOut.loop := by
    intro hl
    have := tokenize_none_of_unterminated p hl
    rw [this] at h
    cases h
  simp only [tokenize] at h
  exact tokenizeGo_ok_wf p _ p [] toks hnl (by intro t ht; cases ht) h

/-! ### Properties of the per-token match -/

/-- `tokenMatch` cannot raise on a well-formed token string. -/
theorem tokenMatch_isSome_of_wf (t : Token) (c : Char) (cs : Bool) (h : WFTok t) :
    (tokenMatch t c cs).isSome = true := by
  obtain ⟨hne, hlb⟩ := h
  match t with
  | [] => exact absurd rfl hne
  | c0 :: rest =>
    cases rest with
    | nil =>
      by_cases hc0 : c0 = '['
      · subst hc0
        have := hlb (by simp)
        simp at this
      · simp only [tokenMatch]
        rw [if_neg hc0]
        split_ifs <;> simp
    | cons c1 rest2 =>
      by_cases hc0 : c0 = '['
      · simp only [tokenMatch]
        rw [if_pos hc0]
        split_ifs <;> simp
      · simp only [tokenMatch]
        rw [if_neg hc0]
        split_ifs <;> simp

/-- The class branch of `_PatternMatcherToken.match` never consults
`case_sensitive`: class membership is tested on the raw characters. -/
theorem tokenMatch_class_const_cs (rest : List Char) (c : Char) :
    tokenMatch ('[' :: rest) c true = tokenMatch ('[' :: rest) c false := rfl

/-! ### Properties of the backtracking matcher -/

/-- The matcher cannot raise when every token is well formed. -/
theorem pmatch_isSome (ap cs : Bool) :
    ∀ (text : List Char) (toks : List Token), (∀ t ∈ toks, WFTok t) →
      (pmatch ap cs text toks).isSome = true := by
  intro text
  induction text with
  | nil =>
    intro toks h
    cases toks <;> simp [pmatch]
  | cons c rest ih =>
    intro toks h
    cases toks with
    | nil => simp [pmatch]
    | cons t ts =>
      have hwt : WFTok t := h t (by simp)
      have hwts : ∀ x ∈ ts, WFTok x := fun x hx => h x (by simp [hx])
      simp only [pmatch]
      cases htm : tokenMatch t c cs with
      | none =>
        have := tokenMatch_isSome_of_wf t c cs hwt
        rw [htm] at this
        cases this
      | some k =>
        match k with
        | 0 => simp
        | 1 => simpa using ih ts hwts
        | m + 2 =>
          cases hb : pmatch ap cs rest ts with
          | none =>
            have := ih ts hwts
            rw [hb] at this
            cases this
          | some b =>
            cases b
            · simpa [hb] using ih (t :: ts) h
            · simp [hb]

/-- If some extension of `n` matches fully without prefix mode, then `n`
itself matches in prefix mode: prefix-acceptance accepts every potential
match. -/
theorem pmatch_prefix (cs : Bool) :
    ∀ (n : List Char) (toks : List Token) (e : List Char), (∀ t ∈ toks, WFTok t) →
      pmatch false cs (n ++ e) toks = some true →
      pmatch true cs n toks = some true := by
  intro n
  induction n with
  | nil =>
    intro toks e hwf h
    cases toks with
    | nil =>
      simp only [List.nil_append] at h
      simp only [pmatch] at h ⊢
      rfl
    | cons t ts => simp [pmatch]
  | cons c n' ih =>
    intro toks e hwf h
    cases toks with
    | nil =>
      simp only [List.cons_append, pmatch] at h
      simp at h
    | cons t ts =>
      have hwts : ∀ x ∈ ts, WFTok x := fun x hx => hwf x (by simp [hx])
      rw [List.cons_append] at h
      simp only [pmatch] at h ⊢
      cases htm : tokenMatch t c cs with
      | none => rw [htm] at h; cases h
      | some k =>
        rw [htm] at h
        match k with
        | 0 => simp at h
        | 1 =>
          have h4 : pmatch false cs (n' ++ e) ts = some true := h
          exact ih ts e hwts h4
        | m + 2 =>
          have h1 : (match pmatch false cs (n' ++ e) ts with
              | none => none
              | some true => some true
              | some false => pmatch false cs (n' ++ e) (t :: ts)) = some true := h
          show (match pmatch true cs n' ts with
              | none => none
              | some true => some true
              | some false => pmatch true cs n' (t :: ts)) = some true
          cases hb : pmatch false cs (n' ++ e) ts with
          | none => rw [hb] at h1; cases h1
          | some b =>
            rw [hb] at h1
            cases b with
            | true =>
              have h2 : pmatch true cs n' ts = some true := ih ts e hwts hb
              rw [h2]
            | false =>
              have h3 : pmatch false cs (n' ++ e) (t :: ts) = some true := h1
              have h2 : pmatch true cs n' (t :: ts) = some true := ih (t :: ts) e hwf h3
              cases hb2 : pmatch true cs n' ts with
              | none =>
                have hS := pmatch_isSome true cs n' ts hwts
                rw [hb2] at hS
                cases hS
              | some b2 =>
                cases b2 with
                | true => rfl
                | false => exact h2

/-- A pattern character that is treated as a single literal by the
tokenizer. -/
def allLiteral (s : List Char) : Prop :=
  ∀ c ∈ s, c ≠ '[' ∧ c ≠ ']' ∧ c ≠ '?' ∧ c ≠ '*'

instance (s : List Char) : Decidable (allLiteral s) := by
  unfold allLiteral; infer_instance

/-- On a pattern of literal characters the tokenizer emits one
single-character token per character. -/
theorem tokenizeGo_literal (p : List Char) :
    ∀ (s : List Char) (fuel : Nat) (acc : List Token), allLiteral s → s.length < fuel →
      tokenizeGo p fuel s acc =
        some (Except.ok (acc.reverse ++ s.map (fun c => [c]))) := by
  intro s
  induction s with
  | nil =>
    intro fuel acc _ _
    cases fuel <;> simp [tokenizeGo]
  | cons c rest ih =>
    intro fuel acc hall hlt
    match fuel with
    | 0 => simp at hlt
    | fuel + 1 =>
      obtain ⟨h1, h2, h3, h4⟩ := hall c (by simp)
      simp only [tokenizeGo]
      rw [if_neg h1, if_neg h2, if_neg h3, if_neg h4]
      rw [ih fuel ([c] :: acc) (fun x hx => hall x (by simp [hx]))
        (by simp only [List.length_cons] at hlt; omega)]
      simp

theorem tokenize_literal (p : List Char) (hall : allLiteral p) :
    tokenize p = some (Except.ok (p.map (fun c => [c]))) := by
  simp only [tokenize]
  rw [tokenizeGo_literal p p (p.length + 1) [] hall (Nat.lt_succ_self _)]
  simp

/-- Matching a literal-only compiled pattern against a text, without prefix
acceptance, is exact equality of the text with the pattern. -/
theorem pmatch_literal :
    ∀ (s text : List Char), allLiteral s →
      pmatch false true text (s.map (fun c => [c])) = some (decide (text = s)) := by
  intro s
  induction s with
  | nil =>
    intro text _
    cases text with
    | nil => simp [pmatch]
    | cons d t' => simp [pmatch]
  | cons c s' ih =>
    intro text hall
    obtain ⟨h1, h2, h3, h4⟩ := hall c (by simp)
    have hall' : allLiteral s' := fun x hx => hall x (by simp [hx])
    cases text with
    | nil => simp [pmatch]
    | cons d t' =>
      simp only [List.map_cons, pmatch]
      have htm : tokenMatch [c] d true = if c = d then some 1 else some 0 := by
        simp only [tokenMatch]
        rw [if_neg h1]
        rw [if_neg (by simp [h3] : ¬([c] = ['?']))]
        rw [if_neg (by simp [h4] : ¬([c] = ['*']))]
        rw [if_neg (by simp : ¬([c] = ['*', '*']))]
        simp only [if_true]
        by_cases hcd : c = d
        · subst hcd; simp
        · simp [hcd]
      rw [htm]
      by_cases hcd : c = d
      · rw [if_pos hcd]
        subst hcd
        rw [ih t' hall']
        simp
      · rw [if_neg hcd]
        have : (d :: t' = c :: s') = False := by
          simp
          intro hdc
          exact absurd hdc.symm hcd
        simp [this]

/-! ### The pattern cache and the public query functions -/

/-- Modelled from the spec: `fs/lrucache.py` (the `LRUCache` class imported
by `fs/wildcard.py`) is not among the sampled sources.  Per spec §3/§4.3 it
is a bounded least-recently-used mapping: lookup of a present key promotes
the entry to most-recently-used and returns it, lookup of an absent key
fails without changing anything, and insertion places the entry as
most-recently-used, evicting the least-recently-used entry beyond capacity.
Entries are kept most-recently-used first. -/
structure LRUCache (K V : Type) where
  capacity : Nat
  entries : List (K × V)
  deriving DecidableEq

/-- Modelled from the spec: cache lookup (`_PATTERN_CACHE[args]`); `none`
is the `KeyError` taken by the `except` branch of `match`/`imatch`, raised
without mutating the cache; a hit returns the value and the cache with the
entry promoted to most-recently-used. -/
def LRUCache.lookup {K V : Type} [DecidableEq K] (c : LRUCache K V) (k : K) :
    Option (V × LRUCache K V) :=
  match c.entries.find? (fun e => decide (e.1 = k)) with
  | none => none
  | some kv =>
    some (kv.2, ⟨c.capacity, (k, kv.2) :: c.entries.filter (fun e => !(decide (e.1 = k)))⟩)

/-- Modelled from the spec: cache insertion (`_PATTERN_CACHE[args] = pat`),
placing the new entry most-recently-used and truncating to capacity. -/
def LRUCache.insert {K V : Type} [DecidableEq K] (c : LRUCache K V) (k : K) (v : V) :
    LRUCache K V :=
  ⟨c.capacity, ((k, v) :: c.entries.filter (fun e => !(decide (e.1 = k)))).take c.capacity⟩

/-- The compiled matcher object held in the cache: the fields of a
successfully constructed `PatternMatcher`. -/
structure PatternMatcher where
  case_sensitive : Bool
  accept_prefixes : Bool
  tokens : List Token
  deriving DecidableEq

/-- The module-level `_PATTERN_CACHE`, keyed by
`(pattern, case_sensitive, accept_prefix)`. -/
abbrev PatternCache := LRUCache (List Char × Bool × Bool) PatternMatcher

/-- Invoking a compiled matcher: `pat(name)`. -/
def PatternMatcher.call (pm : PatternMatcher) (name : List Char) : MatchResult :=
  match pmatch pm.accept_prefixes pm.case_sensitive name pm.tokens with
  | none => MatchResult.runtimeError
  | some b => MatchResult.result b

/-- Embedding of the `match` function of `fs/wildcard.py`: look the key up
in the cache; on a `KeyError` miss construct the `PatternMatcher` (which may
raise or diverge — in both cases the cache is left unchanged) and insert it;
finally invoke the matcher.  Returns the query outcome along with the cache
state after the call. -/
def matchCached (cache : PatternCache) (pattern name : List Char) (accept_prefixes : Bool) :
    MatchResult × PatternCache :=
  match cache.lookup (pattern, true, accept_prefixes) with
  | some pc => (pc.1.call name, pc.2)
  | none =>
    match tokenize pattern with
    | none => (MatchResult.diverge, cache)
    | some (Except.error e) => (MatchResult.compileError e, cache)
    | some (Except.ok toks) =>
      (PatternMatcher.call ⟨true, accept_prefixes, toks⟩ name,
        cache.insert (pattern, true, accept_prefixes) ⟨true, accept_prefixes, toks⟩)

/-- Embedding of the `imatch` function of `fs/wildcard.py`: identical to
`match` except that the key and matcher carry `case_sensitive = false`. -/
def imatchCached (cache : PatternCache) (pattern name : List Char) (accept_prefixes : Bool) :
    MatchResult × PatternCache :=
  match cache.lookup (pattern, false, accept_prefixes) with
  | some pc => (pc.1.call name, pc.2)
  | none =>
    match tokenize pattern with
    | none => (MatchResult.diverge, cache)
    | some (Except.error e) => (MatchResult.compileError e, cache)
    | some (Except.ok toks) =>
      (PatternMatcher.call ⟨false, accept_prefixes, toks⟩ name,
        cache.insert (pattern, false, accept_prefixes) ⟨false, accept_prefixes, toks⟩)

/-- Characterisation of a boolean query outcome: the pattern compiled and
the backtracking matcher returned that boolean. -/
theorem matchRun_eq_result (cs : Bool) (p name : List Char) (ap b : Bool) :
    matchRun cs p name ap = MatchResult.result b ↔
      ∃ toks, tokenize p = some (Except.ok toks) ∧ pmatch ap cs name toks = some b := by
  unfold matchRun
  cases htok : tokenize p with
  | none => simp
  | some r =>
    cases r with
    | error e => simp
    | ok toks =>
      cases hb : pmatch ap cs name toks with
      | none => simp [hb]
      | some b2 => simp [hb]

/-! ### Claim theorems -/

/-- C1: the claim states that a star token matches zero or more characters,
so that `match(s + "*", s)` and `match("*" + s, s)` are true for any
wildcard-free `s` without prefix mode.  The code disagrees: the wildcard
branch of `_match` recurses on `text[1:]` in both disjuncts, so a `*` (or
`**`) always consumes at least one character and every one of the claim's
instances below evaluates to `False` (evaluation of the code at the failing
inputs `("*", "")`, `("a*", "a")`, `("*a", "a")`, `("a*b", "ab")`). -/
theorem c1_star_must_consume :
    matchRun true ['*'] [] false = MatchResult.result false ∧
    matchRun true ['a', '*'] ['a'] false = MatchResult.result false ∧
    matchRun true ['*', 'a'] ['a'] false = MatchResult.result false ∧
    matchRun true ['a', '*', 'b'] ['a', 'b'] false = MatchResult.result false := by
  refine ⟨?_, ?_, ?_, ?_⟩ <;> decide

/-- C2: the claim states that compiling a pattern containing a `[` with no
later `]` terminates and emits a Class token.  In the code
`pattern.find("]", i)` returns `-1`, so `i` is reset to `0` and the scanning
loop never terminates: with any amount of fuel the tokenizer returns `none`
on the failing inputs `"["` and `"a["`. -/
theorem c2_unterminated_class_diverges :
    (∀ (fuel : Nat) (acc : List Token), tokenizeGo ['['] fuel ['['] acc = none) ∧
    (∀ (fuel : Nat) (acc : List Token),
      tokenizeGo ['a', '['] fuel ['a', '['] acc = none) := by
  constructor
  · intro fuel acc
    exact tokenizeGo_none_of_loop ['['] (by decide) fuel ['['] acc (by decide)
  · intro fuel acc
    exact tokenizeGo_none_of_loop ['a', '['] (by decide) fuel ['a', '['] acc (by decide)

/-- C3: compilation raises `InvalidPatternError` exactly when the pattern
contains a `]` not consumed as the terminator of an earlier-opened `[`
class, or a run of three or more consecutive `*` outside a class; and a
pattern that compiles successfully never raises during matching (its token
match is always defined, so matching returns a boolean). -/
theorem c3_compile_error_iff_and_match_total (p : List Char) :
    ((∃ e, tokenize p = some (Except.error e)) ↔ specInvalid p) ∧
    (∀ (toks : List Token) (ap cs : Bool) (name : List Char),
      tokenize p = some (Except.ok toks) →
      (pmatch ap cs name toks).isSome = true) := by
  constructor
  · exact tokenize_error_iff p
  · intro toks ap cs name h
    exact pmatch_isSome ap cs name toks (tokenize_ok_wf p toks h)

/-- Witness for C3 at the concrete patterns `"]"` (which raises) and `"a"`
(which compiles; its matcher is defined on the name `"b"`). -/
theorem c3_witness :
    ((∃ e, tokenize [']'] = some (Except.error e)) ↔ specInvalid [']']) ∧
    (pmatch false true ['b'] [['a']]).isSome = true :=
  ⟨(c3_compile_error_iff_and_match_total [']']).1,
   (c3_compile_error_iff_and_match_total ['a']).2 [['a']] false true ['b'] (by decide)⟩

/-- C4 counterexample: the claim asserts `imatch("[a]", "A")` is true
(case-normalized class comparison).  The class branch of
`_PatternMatcherToken.match` tests membership without any case folding, so
the code returns `False` at this input. -/
theorem c4_class_fold_cex :
    ¬ (matchRun false ['[', 'a', ']'] ['A'] false = MatchResult.result true) := by
  decide

/-- C4 amended: when `case_sensitive` is false only literal comparisons are
case-normalized; character-class membership is tested on the raw characters
(the class branch of the token match does not depend on the flag), so
`imatch("[a]", "a")` is true while `imatch("[a]", "A")` and
`imatch("file.py[CO]", "file.pyc")` are false, and literal folding still
gives `imatch("A", "a")` true. -/
theorem c4_class_fold_amended :
    (∀ (rest : List Char) (c : Char),
      tokenMatch ('[' :: rest) c true = tokenMatch ('[' :: rest) c false) ∧
    matchRun false ['[', 'a', ']'] ['a'] false = MatchResult.result true ∧
    matchRun false ['[', 'a', ']'] ['A'] false = MatchResult.result false ∧
    matchRun false ['A'] ['a'] false = MatchResult.result true ∧
    matchRun false ['f', 'i', 'l', 'e', '.', 'p', 'y', '[', 'C', 'O', ']']
      ['f', 'i', 'l', 'e', '.', 'p', 'y', 'c'] false = MatchResult.result false :=
  ⟨fun _ _ => rfl, by decide, by decide, by decide, by decide⟩

/-- C5 counterexample: for the pattern `"[]"` and the empty name, prefix
mode accepts (`match("[]", "", accept_prefix=True)` is `True` — text
exhausted with tokens remaining always yields `accept_prefixes`), yet the
name does not match without prefix mode and no non-empty extension does
(the empty class matches no character), refuting the claimed equivalence. -/
theorem c5_prefix_iff_cex :
    ¬ (matchRun true ['[', ']'] [] true = MatchResult.result true ↔
        (matchRun true ['[', ']'] [] false = MatchResult.result true ∨
         ∃ e : List Char, e ≠ [] ∧
           matchRun true ['[', ']'] e false = MatchResult.result true)) := by
  intro hiff
  have hL : matchRun true ['[', ']'] [] true = MatchResult.result true := by decide
  rcases hiff.mp hL with h | ⟨e, hne, he⟩
  · exact absurd h (by decide)
  · match e, hne with
    | c :: rest, _ =>
      have hfalse : matchRun true ['[', ']'] (c :: rest) false
          = MatchResult.result false := rfl
      cases hfalse.symm.trans he

/-- C5 amended: prefix-acceptance accepts every potential match — whenever
the name extended by some (possibly empty) string fully matches without
prefix mode, the name itself matches with prefix mode.  The converse
direction of the claim is false (see the counterexample): prefix mode may
also accept names that no extension completes. -/
theorem c5_prefix_amended (p n e : List Char)
    (h : matchRun true p (n ++ e) false = MatchResult.result true) :
    matchRun true p n true = MatchResult.result true := by
  rcases (matchRun_eq_result true p (n ++ e) false true).mp h with ⟨toks, htok, hb⟩
  have hwf := tokenize_ok_wf p toks htok
  have h2 := pmatch_prefix true n toks e hwf hb
  exact (matchRun_eq_result true p n true true).mpr ⟨toks, htok, h2⟩

/-- Witness for C5 amended at pattern `"ab"`, name `"a"`, extension `"b"`. -/
theorem c5_witness : matchRun true ['a', 'b'] ['a'] true = MatchResult.result true :=
  c5_prefix_amended ['a', 'b'] ['a'] ['b'] (by decide)

/-- C6: a `*` token never consumes a `/` while `**` may: the star token
yields outcome `0` exactly on `/` (and the open-ended outcome `2`
otherwise), so `match("foo*.jpg", "foo/a.jpg")` is false while
`match("foo**.jpg", "foo/a.jpg")` and `match("**", "foo/a.jpg")` are
true. -/
theorem c6_star_slash :
    (∀ (cs : Bool) (c : Char),
      tokenMatch ['*'] c cs = if c = '/' then some 0 else some 2) ∧
    matchRun true ['f', 'o', 'o', '*', '.', 'j', 'p', 'g']
      ['f', 'o', 'o', '/', 'a', '.', 'j', 'p', 'g'] false = MatchResult.result false ∧
    matchRun true ['f', 'o', 'o', '*', '*', '.', 'j', 'p', 'g']
      ['f', 'o', 'o', '/', 'a', '.', 'j', 'p', 'g'] false = MatchResult.result true ∧
    matchRun true ['*', '*'] ['f', 'o', 'o', '/', 'a', '.', 'j', 'p', 'g'] false
      = MatchResult.result true :=
  ⟨fun _ _ => rfl, by decide, by decide, by decide⟩

/-- C7: for every pattern whose compilation succeeds and every name, the
matcher returns a boolean without raising; the embedding of `_match` is a
pure function of the matcher and the name, so repeated invocations with the
same arguments are literally the same value (second conjunct). -/
theorem c7_match_total_deterministic (p : List Char) (toks : List Token)
    (h : tokenize p = some (Except.ok toks)) (cs ap : Bool) (name : List Char) :
    (∃ b : Bool, matchRun cs p name ap = MatchResult.result b) ∧
    matchRun cs p name ap = matchRun cs p name ap := by
  refine ⟨?_, rfl⟩
  have hwf := tokenize_ok_wf p toks h
  have hS := pmatch_isSome ap cs name toks hwf
  cases hb : pmatch ap cs name toks with
  | none => rw [hb] at hS; cases hS
  | some b => exact ⟨b, (matchRun_eq_result cs p name ap b).mpr ⟨toks, h, hb⟩⟩

/-- Witness for C7 at pattern `"a"`, name `"b"`. -/
theorem c7_witness :
    ∃ b : Bool, matchRun true ['a'] ['b'] false = MatchResult.result b :=
  (c7_match_total_deterministic ['a'] [['a']] (by decide) true false ['b']).1

/-- C8 counterexample: the claim asserts `match(p, p)` is true for every
pattern built from literals and bracket classes; for `p = "[a]"` the class
token matches a single character, so matching the pattern text itself
returns `False`. -/
theorem c8_self_match_cex :
    ¬ (matchRun true ['[', 'a', ']'] ['[', 'a', ']'] false = MatchResult.result true) := by
  decide

/-- C8 amended: restricted to patterns with no wildcard and no class
tokens (literal characters only), `match(p, p)` is true and
`match(p, p + "x")` is false without prefix mode. -/
theorem c8_literal_self_match (p : List Char) (hall : allLiteral p) :
    matchRun true p p false = MatchResult.result true ∧
    matchRun true p (p ++ ['x']) false = MatchResult.result false := by
  have htok := tokenize_literal p hall
  constructor
  · refine (matchRun_eq_result true p p false true).mpr ⟨_, htok, ?_⟩
    rw [pmatch_literal p p hall]
    simp
  · refine (matchRun_eq_result true p (p ++ ['x']) false false).mpr ⟨_, htok, ?_⟩
    rw [pmatch_literal p (p ++ ['x']) hall]
    have hne : p ++ ['x'] ≠ p := by
      intro hEq
      have := congrArg List.length hEq
      simp at this
    simp [hne]

/-- Witness for C8 amended at the literal pattern `"ab"`. -/
theorem c8_witness :
    matchRun true ['a', 'b'] ['a', 'b'] false = MatchResult.result true ∧
    matchRun true ['a', 'b'] ['a', 'b', 'x'] false = MatchResult.result false :=
  c8_literal_self_match ['a', 'b'] (by decide)

/-- C9: when `match` (or `imatch`) misses the cache on a pattern whose
compilation raises, the error propagates unchanged to the caller and the
cache is returned exactly as it was — nothing is inserted for the failing
key — so an identical later call recompiles and raises the same error
again. -/
theorem c9_cache_error_atomic (cache : PatternCache) (pattern name : List Char)
    (ap : Bool) (e : Err) (herr : tokenize pattern = some (Except.error e)) :
    (cache.lookup (pattern, true, ap) = none →
      matchCached cache pattern name ap = (MatchResult.compileError e, cache) ∧
      matchCached (matchCached cache pattern name ap).2 pattern name ap
        = (MatchResult.compileError e, cache)) ∧
    (cache.lookup (pattern, false, ap) = none →
      imatchCached cache pattern name ap = (MatchResult.compileError e, cache) ∧
      imatchCached (imatchCached cache pattern name ap).2 pattern name ap
        = (MatchResult.compileError e, cache)) := by
  constructor
  · intro hmiss
    have h1 : matchCached cache pattern name ap = (MatchResult.compileError e, cache) := by
      unfold matchCached
      rw [hmiss, herr]
    refine ⟨h1, ?_⟩
    rw [h1]
    exact h1
  · intro hmiss
    have h1 : imatchCached cache pattern name ap = (MatchResult.compileError e, cache) := by
      unfold imatchCached
      rw [hmiss, herr]
    refine ⟨h1, ?_⟩
    rw [h1]
    exact h1

/-- Witness for C9: the empty cache, the invalid pattern `"]"`. -/
theorem c9_witness :
    matchCached ⟨1000, []⟩ [']'] ['a'] false =
      (MatchResult.compileError (Err.unmatchedBracket [']']), ⟨1000, []⟩) :=
  ((c9_cache_error_atomic ⟨1000, []⟩ [']'] ['a'] false
      (Err.unmatchedBracket [']']) (by decide)).1 (by decide)).1

/-- C10: a bracket class matches exactly the literal characters written
between the brackets — no range interpretation: the token of `"[a-z]"`
yields outcome `1` precisely on membership in `{a, -, z}`, so
`match("[a-z]", "b")` is false and `"-"`, `"a"`, `"z"` match. -/
theorem c10_class_literal_membership :
    (∀ (cs : Bool) (c : Char),
      tokenMatch ['[', 'a', '-', 'z', ']'] c cs =
        if ['a', '-', 'z'].contains c then some 1 else some 0) ∧
    matchRun true ['[', 'a', '-', 'z', ']'] ['b'] false = MatchResult.result false ∧
    matchRun true ['[', 'a', '-', 'z', ']'] ['-'] false = MatchResult.result true ∧
    matchRun true ['[', 'a', '-', 'z', ']'] ['a'] false = MatchResult.result true ∧
    matchRun true ['[', 'a', '-', 'z', ']'] ['z'] false = MatchResult.result true :=
  ⟨fun _ _ => rfl, by decide, by decide, by decide, by decide⟩

end Wildcard
